import Mathlib

/-!
Shallow embedding of the migration-commit orchestrator found in
noria-server/src/controller/migrate/mod.rs.

Node and domain identifiers are natural numbers (petgraph NodeIndex and
DomainIndex).  The petgraph node arena is a list of nodes indexed by
position; hash maps are modelled as association lists with first-match
lookup; hash sets as lists without duplicates.  Rust panics (assert!,
unwrap, out-of-bounds indexing) are modelled by Option-valued functions
returning none.
-/

namespace NoriaMigrate

abbrev NodeIndex := Nat
abbrev DomainIndex := Nat

/-- Data values stored in base-table columns and in the migration context
(dataflow DataType, restricted to the variants the migration code inspects). -/
inductive DataType where
  | text : String → DataType
  | int : Int → DataType
deriving DecidableEq

/-- Rendering of a context value as a string, as DataType implements ToString. -/
def dtToString : DataType → String
  | .text s => s
  | .int i => toString i

/-- First-match lookup in an association list (models HashMap::get). -/
def lookupA {α β : Type} [DecidableEq α] : List (α × β) → α → Option β
  | [], _ => none
  | (k, v) :: t, k' => if k = k' then some v else lookupA t k'

/-- In-place value update at a key (models HashMap get_mut followed by
assignment: the key keeps its position, only the value changes). -/
def updateA {α β : Type} [DecidableEq α] (l : List (α × β)) (k : α) (v : β) :
    List (α × β) :=
  l.map (fun e => if e.1 = k then (k, v) else e)

/-- Insert with overwrite (models HashMap::insert). -/
def insertA {α β : Type} [DecidableEq α] (l : List (α × β)) (k : α) (v : β) :
    List (α × β) :=
  if (lookupA l k).isSome then updateA l k v else l ++ [(k, v)]

/-- Concat-map over a list (models iterator flat_map / nested collection). -/
def joinMap {α β : Type} (f : α → List β) : List α → List β
  | [] => []
  | a :: l => f a ++ joinMap f l

/-- The node variants distinguished by the migration code. -/
inductive NodeKind where
  | source
  | base
  | internal
  | ingress
  | egress
  | sharder
  | reader
deriving DecidableEq

/-- A dataflow graph node (dataflow::node::Node), restricted to the
attributes the migration code reads or writes. -/
structure Node where
  name : String
  fields : List String
  kind : NodeKind
  domain : Option DomainIndex := none
  localAddr : Option Nat := none
  dropped : Bool := false
  baseDefaults : List DataType := []
  baseDroppedCols : List Nat := []
  readerKey : Option (List Nat) := none
  readerFor : Option NodeIndex := none
deriving DecidableEq

/-- The petgraph graph: an arena of nodes (indexed by position) plus a
directed edge list. -/
structure Graph where
  nodes : List Node
  edges : List (NodeIndex × NodeIndex)
deriving DecidableEq

def defaultNode : Node :=
  { name := "", fields := [], kind := .internal }

def getNode (g : Graph) (ni : NodeIndex) : Node :=
  g.nodes.getD ni defaultNode

/-- Graph::add_node: appends the node and returns its index. -/
def addNode (g : Graph) (n : Node) : Graph × NodeIndex :=
  ({ g with nodes := g.nodes ++ [n] }, g.nodes.length)

/-- Graph::add_edge. -/
def addEdge (g : Graph) (u v : NodeIndex) : Graph :=
  { g with edges := g.edges ++ [(u, v)] }

/-- Graph::find_edge(u, v).is_some(). -/
def findEdge (g : Graph) (u v : NodeIndex) : Bool :=
  decide ((u, v) ∈ g.edges)

/-- Outgoing neighbors of a node. -/
def neighborsOut (g : Graph) (ni : NodeIndex) : List NodeIndex :=
  (g.edges.filter (fun e => e.1 = ni)).map (fun e => e.2)

/-- Replace the node stored at index ni (out-of-range is unreachable in the
executions the theorems quantify over). -/
def updateNode (g : Graph) (ni : NodeIndex) (f : Node → Node) : Graph :=
  { g with nodes := g.nodes.set ni (f (getNode g ni)) }

/-- The tenant/query bookkeeping tables (ControllerInner::map_meta). -/
structure MapMeta where
  queryToReaders : List (String × List NodeIndex) := []
  readerToUid : List (NodeIndex × Nat) := []
deriving DecidableEq

/-- The parts of ControllerInner that Migration reads or writes. -/
structure ControllerInner where
  ingredients : Graph
  source : NodeIndex
  sharding : Option Nat := none
  remap : List (DomainIndex × List (NodeIndex × Nat)) := []
  domains : List DomainIndex := []
  mapMeta : MapMeta := {}
deriving DecidableEq

/-- A queued schema change on a base node. -/
inductive ColumnChange where
  | add : String → DataType → ColumnChange
  | drop : Nat → ColumnChange
deriving DecidableEq

/-- The pending change set (struct Migration). -/
structure Migration where
  mainline : ControllerInner
  added : List NodeIndex := []
  columns : List (NodeIndex × ColumnChange) := []
  readers : List (NodeIndex × NodeIndex) := []
  context : List (String × DataType) := []
deriving DecidableEq

/-- Migration::add_ingredient.  The ingredient's ancestors() result is the
explicit argument; assert!(!parents.is_empty()) is the none case. -/
def add_ingredient (m : Migration) (name : String) (fields : List String)
    (ancestors : List NodeIndex) : Option (Migration × NodeIndex) :=
  if ancestors.isEmpty then none
  else
    let p := addNode m.mainline.ingredients
      { name := name, fields := fields, kind := .internal }
    let g := ancestors.foldl (fun g par => addEdge g par p.2) p.1
    some ({ m with
              mainline := { m.mainline with ingredients := g },
              added := m.added ++ [p.2] }, p.2)

/-- Migration::add_base: the node's sole parent is the graph source. -/
def add_base (m : Migration) (name : String) (fields : List String)
    (defaults : List DataType) : Migration × NodeIndex :=
  let p := addNode m.mainline.ingredients
    { name := name, fields := fields, kind := .base, baseDefaults := defaults }
  let g := addEdge p.1 m.mainline.source p.2
  ({ m with
       mainline := { m.mainline with ingredients := g },
       added := m.added ++ [p.2] }, p.2)

/-- Migration::universe: the context value at key id, defaulting to global,
together with the optional group value. -/
def universeOf (m : Migration) : DataType × Option DataType :=
  ((lookupA m.context "id").getD (.text "global"), lookupA m.context "group")

/-- Migration::add_column.  none models the panics: the asserts that the
node is not newly added and is a base node, out-of-bounds indexing, and
assert_eq!(col_i1, col_i2). -/
def add_column (m : Migration) (node : NodeIndex) (field : String)
    (default : DataType) : Option (Migration × Nat) :=
  if node ∈ m.added then none
  else if node < m.mainline.ingredients.nodes.length then
    let base := getNode m.mainline.ingredients node
    if base.kind = .base then
      let colI1 := base.fields.length
      let colI2 := base.baseDefaults.length
      if colI1 = colI2 then
        let g := updateNode m.mainline.ingredients node (fun n =>
          { n with fields := n.fields ++ [field],
                   baseDefaults := n.baseDefaults ++ [default] })
        some ({ m with
                  mainline := { m.mainline with ingredients := g },
                  columns := m.columns ++ [(node, .add field default)] }, colI1)
      else none
    else none
  else none

/-- Migration::drop_column.  none models the panics (node newly added, node
not a base, out-of-bounds indexing). -/
def drop_column (m : Migration) (node : NodeIndex) (column : Nat) :
    Option Migration :=
  if node ∈ m.added then none
  else if node < m.mainline.ingredients.nodes.length then
    let base := getNode m.mainline.ingredients node
    if base.kind = .base then
      let g := updateNode m.mainline.ingredients node (fun n =>
        { n with baseDroppedCols := n.baseDroppedCols ++ [column] })
      some { m with
               mainline := { m.mainline with ingredients := g },
               columns := m.columns ++ [(node, .drop column)] }
    else none
  else none

/-- Substring containment over character lists (str::contains with a &str
pattern). -/
def containsSub (hay needle : List Char) : Bool :=
  match hay with
  | [] => needle.isEmpty
  | _ :: t => needle.isPrefixOf hay || containsSub t needle

def strContainsStr (hay needle : String) : Bool :=
  containsSub hay.data needle.data

/-- The general_query scan in ensure_reader_for: the last registered query
name contained in the reader name wins. -/
def generalQuery (keys : List String) (name : String) : Option String :=
  keys.foldl (fun acc k => if strContainsStr name k then some k else acc) none

/-- The query_to_readers bookkeeping performed by ensure_reader_for when a
reader node r has been created under the given (optional) name. -/
def insertReaderMeta (mm : MapMeta) (name : Option String) (r : NodeIndex) :
    MapMeta :=
  match name with
  | none => mm
  | some nm =>
    let key := (generalQuery (mm.queryToReaders.map Prod.fst) nm).getD nm
    match lookupA mm.queryToReaders key with
    | some s =>
      { mm with queryToReaders :=
          updateA mm.queryToReaders key (if r ∈ s then s else s ++ [r]) }
    | none =>
      { mm with queryToReaders := mm.queryToReaders ++ [(key, [r])] }

/-- Migration::ensure_reader_for: no-op when a reader for n is already
registered; otherwise mirrors n into a reader node, wires it below n,
updates query_to_readers, and records the (n, reader) pair. -/
def ensure_reader_for (m : Migration) (n : NodeIndex) (name : Option String) :
    Migration :=
  if (lookupA m.readers n).isSome then m
  else
    let src := getNode m.mainline.ingredients n
    let rnode : Node :=
      { name := name.getD src.name, fields := src.fields, kind := .reader,
        readerFor := some n }
    let p := addNode m.mainline.ingredients rnode
    let g := addEdge p.1 n p.2
    let mm := insertReaderMeta m.mainline.mapMeta name p.2
    { m with
        mainline := { m.mainline with ingredients := g, mapMeta := mm },
        readers := m.readers ++ [(n, p.2)] }

def digitVal (c : Char) : Option Nat :=
  if c.isDigit then some (c.toNat - 48) else none

def parseNatDigits (cs : List Char) : Option Nat :=
  match cs with
  | [] => none
  | _ =>
    cs.foldl
      (fun acc c => acc.bind (fun a => (digitVal c).map (fun d => a * 10 + d)))
      (some 0)

/-- str::parse::<i32>: optional sign, at least one digit, value within the
i32 range. -/
def parseI32 (s : String) : Option Int :=
  match s.data with
  | '-' :: rest =>
    (parseNatDigits rest).bind (fun n =>
      if n ≤ 2 ^ 31 then some (-(n : Int)) else none)
  | '+' :: rest =>
    (parseNatDigits rest).bind (fun n =>
      if n ≤ 2 ^ 31 - 1 then some (n : Int) else none)
  | cs =>
    (parseNatDigits cs).bind (fun n =>
      if n ≤ 2 ^ 31 - 1 then some (n : Int) else none)

/-- Modelled from the spec: a string that is parsable as an unsigned
integer, i.e. a non-empty run of decimal digits (the reading the spec
gives of the universe-id parse; for comparison with parseI32). -/
def unsignedIntParsable (s : String) : Bool :=
  (parseNatDigits s.data).isSome

/-- The cast uint as usize on a value already within the i32 range. -/
def i32AsUsize (i : Int) : Nat :=
  (i % 2 ^ 64).toNat

/-- Node::with_reader_mut(set_key).unwrap(): none when the node is not a
reader. -/
def withReaderSetKey (g : Graph) (ri : NodeIndex) (key : List Nat) :
    Option Graph :=
  if (getNode g ri).kind = .reader then
    some (updateNode g ri (fun n => { n with readerKey := some key }))
  else none

/-- Migration::maintain: ensure a reader, resolve the universe id (panics,
modelled as none, when the id string is neither global nor an i32 literal),
record the reader-to-universe association, and set the reader key. -/
def maintain (m : Migration) (name : String) (n : NodeIndex) (key : List Nat) :
    Option Migration :=
  let m1 := ensure_reader_for m n (some name)
  match lookupA m1.readers n with
  | none => none
  | some ri =>
    let uidStr := dtToString (universeOf m1).1
    let uintOpt : Option Int :=
      if uidStr = "global" then some 0 else parseI32 uidStr
    match uintOpt with
    | none => none
    | some uint =>
      let uid : Nat := i32AsUsize uint
      let mm := { m1.mainline.mapMeta with
                    readerToUid := insertA m1.mainline.mapMeta.readerToUid ri uid }
      match withReaderSetKey m1.mainline.ingredients ri key with
      | none => none
      | some g =>
        some { m1 with
                 mainline := { m1.mainline with ingredients := g, mapMeta := mm } }

/-! Commit-side definitions.  The external collaborators (sharding::shard,
assignment::assign, routing::add, place_domain, augmentation::inform,
routing::connect, materializations.commit) live outside this file's source
and are treated as parameters: commit's own computations are modelled on
the state that results after those passes have run. -/

abbrev SwapMap := List ((NodeIndex × NodeIndex) × NodeIndex)

/-- The stale-chain rewrite at the end of each merge step: every value of
the first map equal to src is replaced by instead (lookups in swapped are
not recursive). -/
def rewriteStale (sw : SwapMap) (src instead : NodeIndex) : SwapMap :=
  sw.map (fun e => (e.1, if e.2 = src then instead else e.2))

/-- One iteration of the swap-merge loop in Migration::commit over the
entry ((dst, src), instead) of the second map (swapped1). -/
def mergeEntry (g : Graph) (sw0 : SwapMap)
    (e : (NodeIndex × NodeIndex) × NodeIndex) : SwapMap :=
  rewriteStale
    (match lookupA sw0 e.1 with
     | some instead0 =>
       if e.2 ≠ instead0 then
         if findEdge g e.1.2 e.2 then sw0
         else updateA sw0 e.1 e.2
       else sw0
     | none => sw0 ++ [(e.1, e.2)])
    e.1.2 e.2

/-- The full swap-merge: fold the routing map (swapped1) into the sharding
map (swapped0). -/
def mergeSwapped (g : Graph) (sw0 sw1 : SwapMap) : SwapMap :=
  sw1.foldl (mergeEntry g) sw0

/-- Modelled from the spec: the conflict-resolution step as the spec
describes it, for comparison with mergeEntry.  On a key present with a
different value it checks for an edge from the original parent to the
FIRST map's substitute and keeps the first map's value when that edge
exists, otherwise takes the second map's value. -/
def specMergeEntry (g : Graph) (sw0 : SwapMap)
    (e : (NodeIndex × NodeIndex) × NodeIndex) : SwapMap :=
  match lookupA sw0 e.1 with
  | some instead0 =>
    if e.2 ≠ instead0 then
      if findEdge g e.1.2 instead0 then sw0
      else updateA sw0 e.1 e.2
    else sw0
  | none => sw0 ++ [(e.1, e.2)]

/-- Whether a node is dropped (Node::is_dropped). -/
def isDropped (g : Graph) (ni : NodeIndex) : Bool :=
  (getNode g ni).dropped

/-- Node::domain() on a node whose domain assignment has run. -/
def domainOf (g : Graph) (ni : NodeIndex) : DomainIndex :=
  (getNode g ni).domain.getD 0

/-- sorted_new: the new-node set as a sorted list. -/
def sortedNewList (new : List NodeIndex) : List NodeIndex :=
  List.insertionSort (· ≤ ·) new

/-- The filters applied when building domain_new_nodes: drop the source
node and dropped nodes. -/
def newFiltered (g : Graph) (source : NodeIndex) (new : List NodeIndex) :
    List NodeIndex :=
  ((sortedNewList new).filter (fun ni => ni ≠ source)).filter
    (fun ni => !isDropped g ni)

/-- HashMap entry(d).or_default().push(ni) over an association list of
vectors. -/
def pushGroup (dns : List (DomainIndex × List NodeIndex)) (d : DomainIndex)
    (ni : NodeIndex) : List (DomainIndex × List NodeIndex) :=
  match dns with
  | [] => [(d, [ni])]
  | (d', ns) :: t =>
    if d' = d then (d', ns ++ [ni]) :: t else (d', ns) :: pushGroup t d ni

/-- domain_new_nodes: the final new nodes grouped by destination domain. -/
def domain_new_nodes (g : Graph) (source : NodeIndex) (new : List NodeIndex) :
    List (DomainIndex × List NodeIndex) :=
  (newFiltered g source new).foldl
    (fun dns ni => pushGroup dns (domainOf g ni) ni) []

/-- The number of pre-existing local slots of a domain: the length of its
remap table, 0 for a brand-new domain. -/
def remapSize (remap : List (DomainIndex × List (NodeIndex × Nat)))
    (d : DomainIndex) : Nat :=
  ((lookupA remap d).getD []).length

/-- The local-address assignment loop for one domain: consecutive slots
starting at start, in node order. -/
def placeNodes (start : Nat) : List NodeIndex → List (NodeIndex × Nat)
  | [] => []
  | n :: ns => (n, start) :: placeNodes (start + 1) ns

/-- All finalized (node, domain, slot) assignments produced by commit. -/
def commitPlacement (remap : List (DomainIndex × List (NodeIndex × Nat)))
    (groups : List (DomainIndex × List NodeIndex)) :
    List (NodeIndex × DomainIndex × Nat) :=
  joinMap (fun p =>
    (placeNodes (remapSize remap p.1) p.2).map (fun q => (q.1, p.1, q.2)))
    groups

/-- The per-node remap view built before on_commit: start from the domain's
remap table and overlay it with one override per swap entry whose child is
ni.  none models the two panics: indexing mainline.remap with a substitute
that has no local address, and assert_eq!(old, None) when the overridden
key already had a resolution. -/
def buildRemapViewAux (domRemap : List (NodeIndex × Nat)) (ni : NodeIndex) :
    SwapMap → List (NodeIndex × Nat) → Option (List (NodeIndex × Nat))
  | [], remap => some remap
  | e :: rest, remap =>
    if e.1.1 ≠ ni then buildRemapViewAux domRemap ni rest remap
    else
      match lookupA domRemap e.2 with
      | none => none
      | some la =>
        match lookupA remap e.1.2 with
        | some _ => none
        | none => buildRemapViewAux domRemap ni rest (remap ++ [(e.1.2, la)])

def buildRemapView (domRemap : List (NodeIndex × Nat)) (ni : NodeIndex)
    (swapped : SwapMap) : Option (List (NodeIndex × Nat)) :=
  buildRemapViewAux domRemap ni swapped domRemap

/-- The notification target list for one queued ColumnChange: for Add, all
nodes immediately downstream of every egress child, then the base node
itself; for Drop, the base node alone. -/
def informTargets (g : Graph) (ni : NodeIndex) : ColumnChange → List NodeIndex
  | .add _ _ =>
    joinMap (fun e => neighborsOut g e)
      ((neighborsOut g ni).filter (fun e => (getNode g e).kind = .egress))
      ++ [ni]
  | .drop _ => [ni]

/-- Observable commit steps, in the order commit performs them. -/
inductive CommitEvent where
  | assignAddr : NodeIndex → DomainIndex → Nat → CommitEvent
  | initNode : NodeIndex → CommitEvent
  | bootDomain : DomainIndex → CommitEvent
  | augmentDomain : DomainIndex → CommitEvent
  | sendColumnMsg : NodeIndex → CommitEvent
  | ackColumnMsg : NodeIndex → CommitEvent
  | connectDomains : CommitEvent
  | commitMaterializations : CommitEvent
deriving DecidableEq

/-- The stage a commit event belongs to: 0 structural placement and node
initialization, 1 domain boot and augmentation, 2 column propagation,
3 inter-domain wiring, 4 materialization. -/
def stageOf : CommitEvent → Nat
  | .assignAddr _ _ _ => 0
  | .initNode _ => 0
  | .bootDomain _ => 1
  | .augmentDomain _ => 1
  | .sendColumnMsg _ => 2
  | .ackColumnMsg _ => 2
  | .connectDomains => 3
  | .commitMaterializations => 4

/-- List deduplication preserving first occurrences (HashSet collection
read back in insertion order). -/
def dedupNat (l : List Nat) : List Nat :=
  l.foldl (fun acc d => if d ∈ acc then acc else acc ++ [d]) []

/-- changed_domains: domains owning at least one new non-dropped node. -/
def changedDomains (g : Graph) (new : List NodeIndex) : List DomainIndex :=
  dedupNat (((sortedNewList new).filter (fun ni => !isDropped g ni)).map
    (domainOf g))

/-- The domains commit boots: changed domains with no running instance. -/
def bootDomainsOf (g : Graph) (running : List DomainIndex)
    (new : List NodeIndex) : List DomainIndex :=
  (changedDomains g new).filter (fun d => d ∉ running)

/-- Domains of all live (non-source, non-dropped) graph nodes. -/
def allGraphDomains (g : Graph) (source : NodeIndex) : List DomainIndex :=
  dedupNat ((((List.range g.nodes.length).filter (fun ni => ni ≠ source)).filter
    (fun ni => !isDropped g ni)).map (domainOf g))

/-- The domains handed to augmentation::inform: every domain with live
nodes that was not just booted. -/
def augmentDomainsOf (g : Graph) (source : NodeIndex)
    (running : List DomainIndex) (new : List NodeIndex) : List DomainIndex :=
  (allGraphDomains g source).filter
    (fun d => d ∉ bootDomainsOf g running new)

/-- The column-propagation trace: for each queued change, in queue order,
each target is sent a control message and acknowledged before the next. -/
def columnPropEvents (g : Graph) (columns : List (NodeIndex × ColumnChange)) :
    List CommitEvent :=
  joinMap (fun p =>
    joinMap (fun t => [CommitEvent.sendColumnMsg t, CommitEvent.ackColumnMsg t])
      (informTargets g p.1 p.2))
    columns

/-- The per-domain loop of commit as events: address assignments for the
domain's new nodes followed by initialization of its internal nodes. -/
def placeInitEvents (g : Graph)
    (remap : List (DomainIndex × List (NodeIndex × Nat)))
    (groups : List (DomainIndex × List NodeIndex)) : List CommitEvent :=
  joinMap (fun p =>
    ((placeNodes (remapSize remap p.1) p.2).map
      (fun q => CommitEvent.assignAddr q.1 p.1 q.2)) ++
    ((p.2.filter (fun ni => (getNode g ni).kind = .internal)).map
      CommitEvent.initNode)) groups

/-- The trace of observable steps of Migration::commit, on the state
reached after sharding, domain assignment and routing have run: per-domain
address assignment followed by node initialization, then domain boots,
then augmentation of existing domains, then column propagation, then
inter-domain wiring, then the materialization commit. -/
def commitTrace (g : Graph) (source : NodeIndex) (new : List NodeIndex)
    (remap : List (DomainIndex × List (NodeIndex × Nat)))
    (running : List DomainIndex) (columns : List (NodeIndex × ColumnChange)) :
    List CommitEvent :=
  placeInitEvents g remap (domain_new_nodes g source new) ++
    (bootDomainsOf g running new).map CommitEvent.bootDomain ++
    (augmentDomainsOf g source running new).map CommitEvent.augmentDomain ++
    columnPropEvents g columns ++
    [CommitEvent.connectDomains, CommitEvent.commitMaterializations]

/-! Concrete fixtures used by counterexamples and witnesses. -/

/-- A one-node graph wrapped in a controller, with the given migration
context. -/
def smallController : ControllerInner :=
  { ingredients :=
      { nodes := [{ name := "n0", fields := ["a"], kind := .internal }],
        edges := [] },
    source := 0 }

/-- A migration over smallController whose context id renders as -5. -/
def mC10 : Migration :=
  { mainline := smallController, context := [("id", DataType.int (-5))] }

/-- A migration over smallController whose context id renders as 12. -/
def mC10w : Migration :=
  { mainline := smallController, context := [("id", DataType.int 12)] }

/-- An empty migration over smallController. -/
def mC4 : Migration :=
  { mainline := smallController }

/-- A graph with two new nodes destined for domain 1 and one for domain
2, used to exercise local-address placement. -/
def gC1 : Graph :=
  { nodes := [{ name := "src", fields := [], kind := .source },
              { name := "a", fields := ["x"], kind := .internal,
                domain := some 1 },
              { name := "b", fields := ["x"], kind := .internal,
                domain := some 1 },
              { name := "c", fields := ["x"], kind := .internal,
                domain := some 2 }],
    edges := [] }

/-- A three-node chain base, egress, ingress used to exercise column
propagation. -/
def gC3 : Graph :=
  { nodes := [{ name := "b", fields := ["a"], kind := .base },
              { name := "e", fields := ["a"], kind := .egress },
              { name := "i", fields := ["a"], kind := .ingress }],
    edges := [(0, 1), (1, 2)] }

/-- A running graph with a source node and one base node with a single
column, and an empty migration over it. -/
def mC9 : Migration :=
  { mainline :=
      { ingredients :=
          { nodes := [{ name := "src", fields := [], kind := .source },
                      { name := "t", fields := ["a"], kind := .base,
                        baseDefaults := [DataType.int 0] }],
            edges := [(0, 1)] },
        source := 0 } }

/-! Shared lemmas about the association-list and list helpers. -/

theorem lookupA_append {α β : Type} [DecidableEq α] (l1 l2 : List (α × β))
    (k : α) :
    lookupA (l1 ++ l2) k =
      (match lookupA l1 k with | some v => some v | none => lookupA l2 k) := by
  induction l1 with
  | nil => simp [lookupA]
  | cons e t ih =>
    by_cases h : e.1 = k
    · simp [lookupA, h]
    · simpa [lookupA, h] using ih

theorem lookupA_none_of_not_mem {α β : Type} [DecidableEq α]
    {l : List (α × β)} {k : α} (h : k ∉ l.map Prod.fst) : lookupA l k = none := by
  induction l with
  | nil => simp [lookupA]
  | cons e t ih =>
    simp only [List.map_cons, List.mem_cons] at h
    push_neg at h
    simpa [lookupA, Ne.symm h.1] using ih h.2

theorem lookupA_isSome_of_mem {α β : Type} [DecidableEq α]
    {l : List (α × β)} {e : α × β} (h : e ∈ l) : (lookupA l e.1).isSome := by
  induction l with
  | nil => simp at h
  | cons f t ih =>
    rcases List.mem_cons.mp h with h1 | h1
    · simp [lookupA, h1]
    · by_cases hf : f.1 = e.1
      · simp [lookupA, hf]
      · simpa [lookupA, hf] using ih h1

theorem lookupA_self_of_nodup {α β : Type} [DecidableEq α]
    {l : List (α × β)} {e : α × β} (nd : (l.map Prod.fst).Nodup) (h : e ∈ l) :
    lookupA l e.1 = some e.2 := by
  induction l with
  | nil => simp at h
  | cons f t ih =>
    simp only [List.map_cons, List.nodup_cons] at nd
    rcases List.mem_cons.mp h with h1 | h1
    · simp [lookupA, h1]
    · have hne : f.1 ≠ e.1 := by
        intro hc
        exact nd.1 (hc ▸ List.mem_map_of_mem Prod.fst h1)
      simpa [lookupA, hne] using ih nd.2 h1

theorem updateA_cons {α β : Type} [DecidableEq α] (e : α × β)
    (t : List (α × β)) (k : α) (v : β) :
    updateA (e :: t) k v = (if e.1 = k then (k, v) else e) :: updateA t k v :=
  rfl

theorem lookupA_updateA_self {α β : Type} [DecidableEq α] (l : List (α × β))
    (k : α) (v : β) :
    lookupA (updateA l k v) k = (lookupA l k).map (fun _ => v) := by
  induction l with
  | nil => simp [lookupA, updateA]
  | cons e t ih =>
    rw [updateA_cons]
    by_cases h : e.1 = k
    · rw [if_pos h]
      simp [lookupA, h]
    · rw [if_neg h]
      simpa [lookupA, h] using ih

theorem lookupA_updateA_ne {α β : Type} [DecidableEq α] (l : List (α × β))
    (k k' : α) (v : β) (h : k' ≠ k) :
    lookupA (updateA l k v) k' = lookupA l k' := by
  induction l with
  | nil => simp [lookupA, updateA]
  | cons e t ih =>
    rw [updateA_cons]
    by_cases he : e.1 = k
    · rw [if_pos he]
      have : k ≠ k' := fun hc => h hc.symm
      simpa [lookupA, this, he, Ne.symm h] using ih
    · rw [if_neg he]
      by_cases he' : e.1 = k'
      · simp [lookupA, he']
      · simpa [lookupA, he'] using ih

theorem mem_joinMap {α β : Type} {f : α → List β} {l : List α} {b : β} :
    b ∈ joinMap f l ↔ ∃ a ∈ l, b ∈ f a := by
  induction l with
  | nil => simp [joinMap]
  | cons a t ih =>
    simp only [joinMap, List.mem_append, ih, List.mem_cons]
    constructor
    · rintro (h | ⟨a', ha', hb⟩)
      · exact ⟨a, Or.inl rfl, h⟩
      · exact ⟨a', Or.inr ha', hb⟩
    · rintro ⟨a', ha' | ha', hb⟩
      · exact Or.inl (ha' ▸ hb)
      · exact Or.inr ⟨a', ha', hb⟩

theorem joinMap_append {α β : Type} (f : α → List β) (l1 l2 : List α) :
    joinMap f (l1 ++ l2) = joinMap f l1 ++ joinMap f l2 := by
  induction l1 with
  | nil => simp [joinMap]
  | cons a t ih => simp [joinMap, ih]

theorem map_joinMap {α β γ : Type} (g : β → γ) (f : α → List β) (l : List α) :
    (joinMap f l).map g = joinMap (fun a => (f a).map g) l := by
  induction l with
  | nil => simp [joinMap]
  | cons a t ih => simp [joinMap, ih]

theorem joinMap_joinMap {α β γ : Type} (h : β → List γ) (f : α → List β)
    (l : List α) :
    joinMap h (joinMap f l) = joinMap (fun a => joinMap h (f a)) l := by
  induction l with
  | nil => simp [joinMap]
  | cons a t ih => simp [joinMap, joinMap_append, ih]

theorem count_joinMap {α β : Type} [DecidableEq β] (f : α → List β)
    (l : List α) (b : β) :
    (joinMap f l).count b = (l.map (fun a => (f a).count b)).sum := by
  induction l with
  | nil => simp [joinMap]
  | cons a t ih => simp [joinMap, List.count_append, ih]

theorem lookupA_rewriteStale (sw : SwapMap) (s v : NodeIndex)
    (k : NodeIndex × NodeIndex) :
    lookupA (rewriteStale sw s v) k =
      (lookupA sw k).map (fun x => if x = s then v else x) := by
  induction sw with
  | nil => simp [lookupA, rewriteStale]
  | cons e t ih =>
    by_cases h : e.1 = k
    · simp [lookupA, rewriteStale, h]
    · simpa [lookupA, rewriteStale, h] using ih

theorem rewriteStale_eq_self {sw : SwapMap} {s : NodeIndex} (v : NodeIndex)
    (h : ∀ e ∈ sw, e.2 ≠ s) : rewriteStale sw s v = sw := by
  induction sw with
  | nil => rfl
  | cons e t ih =>
    have he : e.2 ≠ s := h e (List.mem_cons_self e t)
    simp only [rewriteStale, List.map_cons, if_neg he]
    have ht := ih (fun e' he' => h e' (List.mem_cons_of_mem e he'))
    simpa [rewriteStale] using ht

theorem mem_of_lookupA_eq_some {α β : Type} [DecidableEq α]
    {l : List (α × β)} {k : α} {v : β} (h : lookupA l k = some v) :
    (k, v) ∈ l := by
  induction l with
  | nil => simp [lookupA] at h
  | cons e t ih =>
    by_cases he : e.1 = k
    · rw [lookupA, if_pos he] at h
      cases h
      rw [← he]
      exact List.mem_cons_self _ _
    · rw [lookupA, if_neg he] at h
      exact List.mem_cons_of_mem _ (ih h)

theorem getNode_append_lt (g : Graph) (x : Node) (i : NodeIndex)
    (h : i < g.nodes.length) :
    getNode { g with nodes := g.nodes ++ [x] } i = getNode g i := by
  simp [getNode, List.getD_eq_getElem?_getD, List.getElem?_append, h]

theorem getNode_append_len (g : Graph) (x : Node) :
    getNode { g with nodes := g.nodes ++ [x] } g.nodes.length = x := by
  simp [getNode, List.getD_eq_getElem?_getD, List.getElem?_append]

theorem getNode_default_of_le (g : Graph) (i : NodeIndex)
    (h : g.nodes.length ≤ i) : getNode g i = defaultNode := by
  simp [getNode, List.getD_eq_getElem?_getD, List.getElem?_eq_none h]

theorem getNode_updateNode_self (g : Graph) (i : NodeIndex) (f : Node → Node)
    (h : i < g.nodes.length) :
    getNode (updateNode g i f) i = f (getNode g i) := by
  simp [getNode, updateNode, List.getD_eq_getElem?_getD, List.getElem?_set, h]

theorem getNode_updateNode_ne (g : Graph) (i j : NodeIndex) (f : Node → Node)
    (h : i ≠ j) : getNode (updateNode g i f) j = getNode g j := by
  simp [getNode, updateNode, List.getD_eq_getElem?_getD, List.getElem?_set, h]

theorem foldl_addEdge_nodes (x : NodeIndex) (l : List NodeIndex) (g : Graph) :
    (l.foldl (fun g par => addEdge g par x) g).nodes = g.nodes := by
  induction l generalizing g with
  | nil => rfl
  | cons a t ih => simpa [addEdge] using ih _

/-! Lemmas about ensure_reader_for used by several claims. -/

theorem ensure_reader_for_context (m : Migration) (n : NodeIndex)
    (nm : Option String) : (ensure_reader_for m n nm).context = m.context := by
  rw [ensure_reader_for]
  split <;> rfl

theorem ensure_reader_for_domains (m : Migration) (n : NodeIndex)
    (nm : Option String) :
    (ensure_reader_for m n nm).mainline.domains = m.mainline.domains := by
  rw [ensure_reader_for]
  split <;> rfl

theorem ensure_reader_for_remap (m : Migration) (n : NodeIndex)
    (nm : Option String) :
    (ensure_reader_for m n nm).mainline.remap = m.mainline.remap := by
  rw [ensure_reader_for]
  split <;> rfl

theorem ensure_reader_for_of_present (m : Migration) (n : NodeIndex)
    (nm : Option String) (h : (lookupA m.readers n).isSome) :
    ensure_reader_for m n nm = m := by
  rw [ensure_reader_for, if_pos h]

theorem ensure_reader_for_readers_of_absent (m : Migration) (n : NodeIndex)
    (nm : Option String) (h : lookupA m.readers n = none) :
    (ensure_reader_for m n nm).readers =
      m.readers ++ [(n, m.mainline.ingredients.nodes.length)] := by
  rw [ensure_reader_for, if_neg (by simp [h])]
  rfl

theorem ensure_reader_for_lookup_isSome (m : Migration) (n : NodeIndex)
    (nm : Option String) :
    (lookupA (ensure_reader_for m n nm).readers n).isSome := by
  by_cases h : (lookupA m.readers n).isSome
  · rw [ensure_reader_for_of_present m n nm h]
    exact h
  · have hn : lookupA m.readers n = none := by
      cases hc : lookupA m.readers n
      · rfl
      · rw [hc] at h
        simp at h
    rw [ensure_reader_for_readers_of_absent m n nm hn, lookupA_append, hn]
    simp [lookupA]

theorem ensure_reader_for_nodes_of_absent (m : Migration) (n : NodeIndex)
    (nm : Option String) (h : lookupA m.readers n = none) :
    (ensure_reader_for m n nm).mainline.ingredients.nodes =
      m.mainline.ingredients.nodes ++
        [{ name := nm.getD (getNode m.mainline.ingredients n).name,
           fields := (getNode m.mainline.ingredients n).fields,
           kind := .reader, readerFor := some n }] := by
  rw [ensure_reader_for, if_neg (by simp [h])]
  rfl

theorem ensure_reader_for_reader_kinds (m : Migration) (n : NodeIndex)
    (nm : Option String)
    (hw : ∀ p ∈ m.readers,
      (getNode m.mainline.ingredients p.2).kind = NodeKind.reader) :
    ∀ p ∈ (ensure_reader_for m n nm).readers,
      (getNode (ensure_reader_for m n nm).mainline.ingredients p.2).kind =
        NodeKind.reader := by
  by_cases h : (lookupA m.readers n).isSome
  · rw [ensure_reader_for_of_present m n nm h]
    exact hw
  · have hn : lookupA m.readers n = none := by
      cases hc : lookupA m.readers n
      · rfl
      · rw [hc] at h
        simp at h
    intro p hp
    rw [ensure_reader_for_readers_of_absent m n nm hn] at hp
    have hnodes := ensure_reader_for_nodes_of_absent m n nm hn
    simp only [getNode]
    rw [show (ensure_reader_for m n nm).mainline.ingredients.nodes =
      m.mainline.ingredients.nodes ++
        [({ name := nm.getD (getNode m.mainline.ingredients n).name,
            fields := (getNode m.mainline.ingredients n).fields,
            kind := .reader, readerFor := some n } : Node)] from hnodes]
    rcases List.mem_append.mp hp with hp1 | hp1
    · by_cases hlt : p.2 < m.mainline.ingredients.nodes.length
      · have hred : (m.mainline.ingredients.nodes ++
            [({ name := nm.getD (getNode m.mainline.ingredients n).name,
                fields := (getNode m.mainline.ingredients n).fields,
                kind := .reader, readerFor := some n } : Node)]).getD p.2
              defaultNode =
            m.mainline.ingredients.nodes.getD p.2 defaultNode := by
          simp [List.getD_eq_getElem?_getD, List.getElem?_append, hlt]
        rw [hred]
        exact hw p hp1
      · have hdef := getNode_default_of_le m.mainline.ingredients p.2
          (Nat.le_of_not_lt hlt)
        have := hw p hp1
        rw [hdef] at this
        cases this
    · have hp2 : p = (n, m.mainline.ingredients.nodes.length) := by
        simpa using hp1
      subst hp2
      simp [List.getD_eq_getElem?_getD, List.getElem?_append]

/-! Claim C2: conflict resolution in the swap merge. -/

/-- C2 counterexample: on the key (1, 2) present in both maps with values
5 (first map) and 7 (second map), in a graph whose only edge runs from the
original parent 2 to the SECOND map's substitute 7, the code keeps the
first map's value 5, while the rule the claim states (inspect the edge to
the FIRST map's substitute, here absent) would make the second map's
value 7 replace it. -/
theorem c2_counterexample :
    lookupA (mergeEntry { nodes := [], edges := [(2, 7)] }
      [((1, 2), 5)] ((1, 2), 7)) (1, 2) = some 5 ∧
    lookupA (specMergeEntry { nodes := [], edges := [(2, 7)] }
      [((1, 2), 5)] ((1, 2), 7)) (1, 2) = some 7 := by
  decide

/-- C2 amended: when the two maps disagree on a key (child, original
parent), the merge checks whether an edge currently runs from the original
parent directly to the SECOND map's (routing's) substitute; if such an
edge exists the first map's value is kept and the second map's entry is
discarded, otherwise the second map's value replaces the first map's
value. -/
theorem c2_merge_conflict (g : Graph) (sw0 : SwapMap)
    (d s v0 v1 : NodeIndex)
    (h0 : lookupA sw0 (d, s) = some v0) (hne : v1 ≠ v0) (hvs : v0 ≠ s) :
    lookupA (mergeEntry g sw0 ((d, s), v1)) (d, s) =
      some (if findEdge g s v1 then v0 else v1) := by
  unfold mergeEntry
  simp only [h0]
  rw [if_pos hne]
  by_cases hed : findEdge g s v1
  · rw [if_pos hed, lookupA_rewriteStale, h0]
    simp [hvs, hed]
  · rw [if_neg hed, lookupA_rewriteStale, lookupA_updateA_self, h0]
    simp [hed, ite_self]

/-- C2 witness: a concrete conflict where the edge from the original
parent 2 to the second map's substitute 9 exists, so the first map's
value 4 is kept. -/
theorem c2_witness :
    lookupA (mergeEntry { nodes := [], edges := [(2, 9)] }
      [((1, 2), 4)] ((1, 2), 9)) (1, 2) =
      some (if findEdge { nodes := [], edges := [(2, 9)] } 2 9 then 4 else 9) :=
  c2_merge_conflict { nodes := [], edges := [(2, 9)] } [((1, 2), 4)] 1 2 4 9
    (by decide) (by decide) (by decide)

/-! Claim C10: the universe-id parse in maintain. -/

/-- C10 counterexample: with the context id -5, the id string is neither
global nor parsable as an unsigned integer, so the claim predicts a fatal
parse failure, yet maintain succeeds: the code parses a SIGNED 32-bit
integer (type inference makes uid.parse() a parse::<i32>), which accepts
-5. -/
theorem c10_counterexample :
    dtToString (universeOf mC10).1 ≠ "global" ∧
    unsignedIntParsable (dtToString (universeOf mC10).1) = false ∧
    (maintain mC10 "q" 0 [0]).isSome = true := by
  decide

/-- C10 amended: for any migration whose registered readers are reader
nodes, maintain fails fatally on the universe-id parse exactly when the
context id, converted to a string, is neither global nor parsable as a
signed 32-bit integer; an absent id (defaulting to global), a global id,
or an i32-parsable id string never panics there. -/
theorem c10_maintain_parse (m : Migration) (name : String) (n : NodeIndex)
    (key : List Nat)
    (hw : ∀ p ∈ m.readers,
      (getNode m.mainline.ingredients p.2).kind = NodeKind.reader) :
    maintain m name n key = none ↔
      (dtToString (universeOf m).1 ≠ "global" ∧
       parseI32 (dtToString (universeOf m).1) = none) := by
  have hctx : universeOf (ensure_reader_for m n (some name)) = universeOf m := by
    unfold universeOf
    rw [ensure_reader_for_context]
  have hsome := ensure_reader_for_lookup_isSome m n (some name)
  cases hri : lookupA (ensure_reader_for m n (some name)).readers n with
  | none => rw [hri] at hsome; simp at hsome
  | some ri =>
    have hkind : (getNode (ensure_reader_for m n (some name)).mainline.ingredients
        ri).kind = NodeKind.reader := by
      have hmem := mem_of_lookupA_eq_some hri
      exact ensure_reader_for_reader_kinds m n (some name) hw (n, ri) hmem
    simp only [maintain, hri, hctx]
    by_cases hg : dtToString (universeOf m).1 = "global"
    · rw [if_pos hg]
      rw [withReaderSetKey, if_pos hkind]
      simp [hg]
    · rw [if_neg hg]
      cases hp : parseI32 (dtToString (universeOf m).1) with
      | none => simp [hg, hp]
      | some i =>
        rw [withReaderSetKey, if_pos hkind]
        simp [hg, hp]

/-- C10 witness: a migration with no registered readers and id 12 does not
panic on the universe-id parse. -/
theorem c10_witness : ¬(maintain mC10w "q" 0 [0] = none) := by
  have h := c10_maintain_parse mC10w "q" 0 [0] (by simp [mC10w])
  intro hc
  have := h.mp hc
  revert this
  decide

/-! Claim C9: add_column and drop_column preconditions and effects. -/

/-- C9: add_column and drop_column fail fatally (none) whenever the target
node is among this migration's additions or is not a base node; when the
target is a pre-existing base node they mutate its live schema in place
and queue a ColumnChange. -/
theorem c9_column_ops (m : Migration) (node : NodeIndex) (field : String)
    (default : DataType) (column : Nat) :
    ((node ∈ m.added ∨
        (getNode m.mainline.ingredients node).kind ≠ NodeKind.base) →
       add_column m node field default = none ∧
       drop_column m node column = none) ∧
    (node ∉ m.added →
     node < m.mainline.ingredients.nodes.length →
     (getNode m.mainline.ingredients node).kind = NodeKind.base →
     (((getNode m.mainline.ingredients node).fields.length =
         (getNode m.mainline.ingredients node).baseDefaults.length →
       ∃ m', add_column m node field default =
           some (m', (getNode m.mainline.ingredients node).fields.length) ∧
         (getNode m'.mainline.ingredients node).fields =
           (getNode m.mainline.ingredients node).fields ++ [field] ∧
         (getNode m'.mainline.ingredients node).baseDefaults =
           (getNode m.mainline.ingredients node).baseDefaults ++ [default] ∧
         m'.columns = m.columns ++ [(node, ColumnChange.add field default)]) ∧
      (∃ m', drop_column m node column = some m' ∧
         (getNode m'.mainline.ingredients node).baseDroppedCols =
           (getNode m.mainline.ingredients node).baseDroppedCols ++ [column] ∧
         m'.columns = m.columns ++ [(node, ColumnChange.drop column)]))) := by
  constructor
  · rintro (h | h)
    · constructor <;> simp [add_column, drop_column, h]
    · by_cases hmem : node ∈ m.added
      · constructor <;> simp [add_column, drop_column, hmem]
      · by_cases hlt : node < m.mainline.ingredients.nodes.length
        · constructor <;> simp [add_column, drop_column, hmem, hlt, h]
        · constructor <;> simp [add_column, drop_column, hmem, hlt]
  · intro hmem hlt hb
    constructor
    · intro hlen
      refine ⟨{ m with
          mainline := { m.mainline with
            ingredients := updateNode m.mainline.ingredients node (fun n =>
              { n with fields := n.fields ++ [field],
                       baseDefaults := n.baseDefaults ++ [default] }) },
          columns := m.columns ++ [(node, ColumnChange.add field default)] },
        ?_, ?_, ?_, ?_⟩
      · simp [add_column, hmem, hlt, hb, hlen]
      · show (getNode (updateNode m.mainline.ingredients node (fun n =>
            { n with fields := n.fields ++ [field],
                     baseDefaults := n.baseDefaults ++ [default] }))
            node).fields = (getNode m.mainline.ingredients node).fields ++ [field]
        rw [getNode_updateNode_self _ _ _ hlt]
      · show (getNode (updateNode m.mainline.ingredients node (fun n =>
            { n with fields := n.fields ++ [field],
                     baseDefaults := n.baseDefaults ++ [default] }))
            node).baseDefaults =
          (getNode m.mainline.ingredients node).baseDefaults ++ [default]
        rw [getNode_updateNode_self _ _ _ hlt]
      · rfl
    · refine ⟨{ m with
          mainline := { m.mainline with
            ingredients := updateNode m.mainline.ingredients node (fun n =>
              { n with baseDroppedCols := n.baseDroppedCols ++ [column] }) },
          columns := m.columns ++ [(node, ColumnChange.drop column)] },
        ?_, ?_, ?_⟩
      · simp [drop_column, hmem, hlt, hb]
      · show (getNode (updateNode m.mainline.ingredients node (fun n =>
            { n with baseDroppedCols := n.baseDroppedCols ++ [column] }))
            node).baseDroppedCols =
          (getNode m.mainline.ingredients node).baseDroppedCols ++ [column]
        rw [getNode_updateNode_self _ _ _ hlt]
      · rfl

/-- C9 witness: on the concrete base node 1 of mC9, adding a column b with
default 1 succeeds and returns slot 1, and the panic cases hold for the
source node. -/
theorem c9_witness :
    (∃ m', add_column mC9 1 "b" (DataType.int 1) =
        some (m', (getNode mC9.mainline.ingredients 1).fields.length) ∧
      (getNode m'.mainline.ingredients 1).fields =
        (getNode mC9.mainline.ingredients 1).fields ++ ["b"] ∧
      (getNode m'.mainline.ingredients 1).baseDefaults =
        (getNode mC9.mainline.ingredients 1).baseDefaults ++ [DataType.int 1] ∧
      m'.columns = mC9.columns ++ [(1, ColumnChange.add "b" (DataType.int 1))]) :=
  (((c9_column_ops mC9 1 "b" (DataType.int 1) 0).2 (by decide) (by decide)
    (by decide)).1 (by decide))

/-! Claim C7: idempotence of ensure_reader_for. -/

/-- C7: within one migration ensure_reader_for is idempotent: a second
call for the same target node, with any name, is a no-op (hence the
reader identity is the same both times), a first call on an unregistered
target creates exactly one node, and a call on a registered target
creates none. -/
theorem c7_ensure_reader_idempotent (m : Migration) (n : NodeIndex)
    (nm1 nm2 : Option String) :
    (lookupA (ensure_reader_for m n nm1).readers n).isSome = true ∧
    ensure_reader_for (ensure_reader_for m n nm1) n nm2 =
      ensure_reader_for m n nm1 ∧
    (lookupA m.readers n = none →
      (ensure_reader_for m n nm1).mainline.ingredients.nodes.length =
        m.mainline.ingredients.nodes.length + 1) ∧
    ((lookupA m.readers n).isSome → ensure_reader_for m n nm1 = m) := by
  refine ⟨ensure_reader_for_lookup_isSome m n nm1, ?_, ?_, ?_⟩
  · exact ensure_reader_for_of_present _ n nm2
      (ensure_reader_for_lookup_isSome m n nm1)
  · intro h
    rw [ensure_reader_for_nodes_of_absent m n nm1 h]
    simp
  · intro h
    exact ensure_reader_for_of_present m n nm1 h

/-- C7 witness: on the concrete migration mC9, requesting a reader for
node 1 twice adds exactly one node and the second call is a no-op. -/
theorem c7_witness :
    (ensure_reader_for mC9 1 (some "q")).mainline.ingredients.nodes.length =
      mC9.mainline.ingredients.nodes.length + 1 ∧
    ensure_reader_for (ensure_reader_for mC9 1 (some "q")) 1 none =
      ensure_reader_for mC9 1 (some "q") :=
  ⟨(c7_ensure_reader_idempotent mC9 1 (some "q") none).2.2.1 (by decide),
   (c7_ensure_reader_idempotent mC9 1 (some "q") none).2.1⟩

/-! Claim C4: what the builder operations touch before commit. -/

/-- C4 counterexample: add_base on a concrete migration immediately grows
the shared running graph (one more node, a new edge), so the builder's
edits do not live only in the private pending change-set with the
schema-edit exception: node and edge insertions mutate
mainline.ingredients in place. -/
theorem c4_counterexample :
    (add_base mC4 "b" ["x"] []).1.mainline.ingredients.nodes.length =
      mC4.mainline.ingredients.nodes.length + 1 ∧
    (add_base mC4 "b" ["x"] []).1.mainline.ingredients.edges ≠
      mC4.mainline.ingredients.edges := by
  decide

/-- Helper for C4: the success branch of maintain only rewrites the
ingredients and mapMeta fields of the controller. -/
theorem maintain_domains_remap (m : Migration) (name : String) (n : NodeIndex)
    (key : List Nat) (m' : Migration) (h : maintain m name n key = some m') :
    m'.mainline.domains = m.mainline.domains ∧
    m'.mainline.remap = m.mainline.remap := by
  simp only [maintain] at h
  cases hri : lookupA (ensure_reader_for m n (some name)).readers n with
  | none => rw [hri] at h; cases h
  | some ri =>
    by_cases hg :
        dtToString (universeOf (ensure_reader_for m n (some name))).1 = "global"
    · cases hwk : withReaderSetKey
          (ensure_reader_for m n (some name)).mainline.ingredients ri key with
      | none => simp [hri, hg, hwk] at h
      | some g' =>
        simp only [hri, hg, if_true, eq_self_iff_true, hwk,
          Option.some.injEq] at h
        subst h
        exact ⟨ensure_reader_for_domains m n (some name),
               ensure_reader_for_remap m n (some name)⟩
    · cases hp : parseI32
          (dtToString (universeOf (ensure_reader_for m n (some name))).1) with
      | none => simp [hri, hg, hp] at h
      | some i =>
        cases hwk : withReaderSetKey
            (ensure_reader_for m n (some name)).mainline.ingredients ri key with
        | none => simp [hri, hg, hp, hwk] at h
        | some g' =>
          simp only [hri, hg, if_false, hp, hwk, Option.some.injEq] at h
          subst h
          exact ⟨ensure_reader_for_domains m n (some name),
                 ensure_reader_for_remap m n (some name)⟩

/-- C4 amended: before commit the builder operations leave the
runtime-facing controller state untouched: add_ingredient, add_base,
ensure_reader_for and maintain preserve the running-domain set and the
remap tables, and a node added by add_ingredient or add_base carries no
finalized local address and no domain assignment; the operations do,
however, mutate the shared graph (nodes, edges) and reader metadata in
place, beyond the pending change-set and the schema-edit exception. -/
theorem c4_builder_runtime_frame (m : Migration) :
    (∀ (name : String) (fields : List String) (anc : List NodeIndex)
       (m' : Migration) (ni : NodeIndex),
       add_ingredient m name fields anc = some (m', ni) →
       m'.mainline.domains = m.mainline.domains ∧
       m'.mainline.remap = m.mainline.remap ∧
       (getNode m'.mainline.ingredients ni).localAddr = none ∧
       (getNode m'.mainline.ingredients ni).domain = none) ∧
    (∀ (name : String) (fields : List String) (defaults : List DataType),
       (add_base m name fields defaults).1.mainline.domains =
         m.mainline.domains ∧
       (add_base m name fields defaults).1.mainline.remap =
         m.mainline.remap ∧
       (getNode (add_base m name fields defaults).1.mainline.ingredients
         (add_base m name fields defaults).2).localAddr = none ∧
       (getNode (add_base m name fields defaults).1.mainline.ingredients
         (add_base m name fields defaults).2).domain = none) ∧
    (∀ (n : NodeIndex) (nm : Option String),
       (ensure_reader_for m n nm).mainline.domains = m.mainline.domains ∧
       (ensure_reader_for m n nm).mainline.remap = m.mainline.remap) ∧
    (∀ (name : String) (n : NodeIndex) (key : List Nat) (m' : Migration),
       maintain m name n key = some m' →
       m'.mainline.domains = m.mainline.domains ∧
       m'.mainline.remap = m.mainline.remap) := by
  refine ⟨?_, ?_, ?_, ?_⟩
  · intro name fields anc m' ni h
    simp only [add_ingredient] at h
    cases he : anc.isEmpty with
    | true => rw [he] at h; simp at h
    | false =>
      rw [he] at h
      simp only [Bool.false_eq_true, if_false, Option.some.injEq,
        Prod.mk.injEq] at h
      obtain ⟨hm, hni⟩ := h
      subst hm
      subst hni
      refine ⟨rfl, rfl, ?_, ?_⟩ <;>
        simp [getNode, foldl_addEdge_nodes, addNode,
          List.getD_eq_getElem?_getD, List.getElem?_append]
  · intro name fields defaults
    refine ⟨rfl, rfl, ?_, ?_⟩ <;>
      simp [add_base, addNode, addEdge, getNode,
        List.getD_eq_getElem?_getD, List.getElem?_append]
  · intro n nm
    exact ⟨ensure_reader_for_domains m n nm, ensure_reader_for_remap m n nm⟩
  · intro name n key m' h
    exact maintain_domains_remap m name n key m' h

/-- C4 witness: on the concrete migration mC4, an added ingredient leaves
the running-domain set and remap tables untouched and carries no
finalized address. -/
theorem c4_witness :
    ((add_ingredient mC4 "op" ["x"] [0]).get (by decide)).1.mainline.domains =
      mC4.mainline.domains ∧
    (getNode
      ((add_ingredient mC4 "op" ["x"] [0]).get (by decide)).1.mainline.ingredients
      ((add_ingredient mC4 "op" ["x"] [0]).get (by decide)).2).localAddr =
        none := by
  have h := (c4_builder_runtime_frame mC4).1 "op" ["x"] [0]
    ((add_ingredient mC4 "op" ["x"] [0]).get (by decide)).1
    ((add_ingredient mC4 "op" ["x"] [0]).get (by decide)).2
    (Option.some_get (by decide)).symm
  exact ⟨h.1, h.2.2.1⟩

/-! Claim C6: the per-node remap view built before on_commit. -/

theorem brvAux_collision (domRemap : List (NodeIndex × Nat)) (ni : NodeIndex) :
    ∀ (sw : SwapMap) (remap : List (NodeIndex × Nat)),
    (∀ k : NodeIndex, (lookupA domRemap k).isSome → (lookupA remap k).isSome) →
    ∀ e ∈ sw, e.1.1 = ni → (lookupA domRemap e.1.2).isSome →
    buildRemapViewAux domRemap ni sw remap = none := by
  intro sw
  induction sw with
  | nil => intro remap _ e he; simp at he
  | cons e' rest ih =>
    intro remap hinv e he hdst hsome
    simp only [buildRemapViewAux]
    by_cases hd : e'.1.1 ≠ ni
    · rw [if_pos hd]
      rcases List.mem_cons.mp he with heq | he2
      · exact absurd (heq ▸ hdst) hd
      · exact ih remap hinv e he2 hdst hsome
    · rw [if_neg hd]
      cases hla : lookupA domRemap e'.2 with
      | none => rfl
      | some la =>
        cases hlr : lookupA remap e'.1.2 with
        | some v => rfl
        | none =>
          rcases List.mem_cons.mp he with heq | he2
          · rw [heq] at hsome
            obtain ⟨v, hv⟩ := Option.isSome_iff_exists.mp (hinv e'.1.2 hsome)
            rw [hv] at hlr
            cases hlr
          · refine ih (remap ++ [(e'.1.2, la)]) ?_ e he2 hdst hsome
            intro k hk
            rw [lookupA_append]
            obtain ⟨v, hv⟩ := Option.isSome_iff_exists.mp (hinv k hk)
            rw [hv]
            rfl

theorem brvAux_mono (domRemap : List (NodeIndex × Nat)) (ni : NodeIndex) :
    ∀ (sw : SwapMap) (remap view : List (NodeIndex × Nat)),
    buildRemapViewAux domRemap ni sw remap = some view →
    ∀ k v, lookupA remap k = some v → lookupA view k = some v := by
  intro sw
  induction sw with
  | nil =>
    intro remap view h k v hkv
    simp only [buildRemapViewAux, Option.some.injEq] at h
    rw [← h]
    exact hkv
  | cons e' rest ih =>
    intro remap view h k v hkv
    simp only [buildRemapViewAux] at h
    by_cases hd : e'.1.1 ≠ ni
    · rw [if_pos hd] at h
      exact ih remap view h k v hkv
    · rw [if_neg hd] at h
      cases hla : lookupA domRemap e'.2 with
      | none => rw [hla] at h; cases h
      | some la =>
        rw [hla] at h
        cases hlr : lookupA remap e'.1.2 with
        | some v' => rw [hlr] at h; cases h
        | none =>
          rw [hlr] at h
          refine ih _ view h k v ?_
          rw [lookupA_append, hkv]

theorem brvAux_override (domRemap : List (NodeIndex × Nat)) (ni : NodeIndex) :
    ∀ (sw : SwapMap) (remap view : List (NodeIndex × Nat)),
    buildRemapViewAux domRemap ni sw remap = some view →
    ∀ e ∈ sw, e.1.1 = ni →
      (lookupA domRemap e.2).isSome ∧
      lookupA view e.1.2 = lookupA domRemap e.2 := by
  intro sw
  induction sw with
  | nil => intro remap view _ e he; simp at he
  | cons e' rest ih =>
    intro remap view h e he hdst
    simp only [buildRemapViewAux] at h
    by_cases hd : e'.1.1 ≠ ni
    · rw [if_pos hd] at h
      rcases List.mem_cons.mp he with heq | he2
      · exact absurd (heq ▸ hdst) hd
      · exact ih remap view h e he2 hdst
    · rw [if_neg hd] at h
      cases hla : lookupA domRemap e'.2 with
      | none => rw [hla] at h; cases h
      | some la =>
        rw [hla] at h
        cases hlr : lookupA remap e'.1.2 with
        | some v' => rw [hlr] at h; cases h
        | none =>
          rw [hlr] at h
          rcases List.mem_cons.mp he with heq | he2
          · rw [heq]
            refine ⟨by rw [hla]; rfl, ?_⟩
            have hin : lookupA (remap ++ [(e'.1.2, la)]) e'.1.2 = some la := by
              rw [lookupA_append, hlr]
              simp [lookupA]
            have hv := brvAux_mono domRemap ni rest _ view h _ _ hin
            rw [hv, hla]
          · exact ih _ view h e he2 hdst

/-- C6: when initializing a new internal node ni, every merged-swap entry
whose child is ni overlays the remap view by mapping the original global
parent to the local address the domain remap table gives the swap's
substitute; if the overridden key already has a resolution in the remap
view (in particular in the domain table itself), the build fails fatally
(assert_eq old None). -/
theorem c6_remap_overrides (domRemap : List (NodeIndex × Nat))
    (ni : NodeIndex) (swapped : SwapMap) :
    (∀ e ∈ swapped, e.1.1 = ni → (lookupA domRemap e.1.2).isSome →
       buildRemapView domRemap ni swapped = none) ∧
    (∀ view, buildRemapView domRemap ni swapped = some view →
       ∀ e ∈ swapped, e.1.1 = ni →
         (lookupA domRemap e.2).isSome ∧
         lookupA view e.1.2 = lookupA domRemap e.2) := by
  constructor
  · intro e he hdst hsome
    exact brvAux_collision domRemap ni swapped domRemap (fun _ hk => hk)
      e he hdst hsome
  · intro view h e he hdst
    exact brvAux_override domRemap ni swapped domRemap view h e he hdst

/-- C6 witness: with domain remap mapping node 1 to slot 0 and ingress 7
to slot 1, the single swap entry (child 9, original parent 5, substitute
7) yields a view resolving 5 to the substitute's local address. -/
theorem c6_witness :
    (lookupA [(1, 0), (7, 1)] 7).isSome ∧
    lookupA ((buildRemapView [(1, 0), (7, 1)] 9 [((9, 5), 7)]).get (by decide))
        5 =
      lookupA [(1, 0), (7, 1)] 7 := by
  have h := (c6_remap_overrides [(1, 0), (7, 1)] 9 [((9, 5), 7)]).2
    ((buildRemapView [(1, 0), (7, 1)] 9 [((9, 5), 7)]).get (by decide))
    (Option.some_get (by decide)).symm ((9, 5), 7) (by decide) (by decide)
  exact ⟨h.1, h.2⟩

/-! Claim C3: column propagation targets and sequencing. -/

theorem mem_neighborsOut (g : Graph) (e t : NodeIndex) :
    t ∈ neighborsOut g e ↔ (e, t) ∈ g.edges := by
  simp only [neighborsOut, List.mem_map, List.mem_filter, decide_eq_true_eq]
  constructor
  · rintro ⟨p, ⟨hp, hfst⟩, hsnd⟩
    have hpt : p = (e, t) := by
      cases p
      simp_all
    rwa [hpt] at hp
  · intro h
    exact ⟨(e, t), ⟨h, rfl⟩, rfl⟩

theorem alt_send_ack (ts : List NodeIndex) :
    ∀ (i : Nat) (t : NodeIndex),
    (joinMap (fun t => [CommitEvent.sendColumnMsg t,
        CommitEvent.ackColumnMsg t]) ts)[i]? =
      some (CommitEvent.sendColumnMsg t) →
    (joinMap (fun t => [CommitEvent.sendColumnMsg t,
        CommitEvent.ackColumnMsg t]) ts)[i + 1]? =
      some (CommitEvent.ackColumnMsg t) := by
  induction ts with
  | nil => intro i t h; simp [joinMap] at h
  | cons a rest ih =>
    intro i t h
    have hshape : joinMap (fun t => [CommitEvent.sendColumnMsg t,
        CommitEvent.ackColumnMsg t]) (a :: rest) =
        CommitEvent.sendColumnMsg a :: CommitEvent.ackColumnMsg a ::
          joinMap (fun t => [CommitEvent.sendColumnMsg t,
            CommitEvent.ackColumnMsg t]) rest := rfl
    match i with
    | 0 =>
      rw [hshape] at h
      simp only [List.getElem?_cons_zero, Option.some.injEq,
        CommitEvent.sendColumnMsg.injEq] at h
      rw [hshape, h]
      simp
    | 1 =>
      rw [hshape] at h
      simp at h
    | (n + 2) =>
      rw [hshape] at h ⊢
      simp only [List.getElem?_cons_succ] at h ⊢
      exact ih n t h

/-- C3: under the routing invariant that every edge out of an egress node
leads to an ingress node, an Add change is propagated to the base node
plus exactly the ingress nodes immediately downstream of every egress
child of the base, a Drop change is propagated to the base alone, and in
the column-propagation trace each target is notified and acknowledged
before the next target is contacted. -/
theorem c3_column_propagation (g : Graph)
    (hinv : ∀ p ∈ g.edges, (getNode g p.1).kind = NodeKind.egress →
      (getNode g p.2).kind = NodeKind.ingress)
    (ni : NodeIndex) (f : String) (d : DataType) (c : Nat)
    (columns : List (NodeIndex × ColumnChange)) :
    (∀ t, t ∈ informTargets g ni (.add f d) ↔
       (t = ni ∨ ∃ e, (getNode g e).kind = NodeKind.egress ∧
          (ni, e) ∈ g.edges ∧ (e, t) ∈ g.edges ∧
          (getNode g t).kind = NodeKind.ingress)) ∧
    informTargets g ni (.drop c) = [ni] ∧
    (∀ (i : Nat) (t : NodeIndex),
      (columnPropEvents g columns)[i]? =
        some (CommitEvent.sendColumnMsg t) →
      (columnPropEvents g columns)[i + 1]? =
        some (CommitEvent.ackColumnMsg t)) := by
  refine ⟨?_, rfl, ?_⟩
  · intro t
    simp only [informTargets, List.mem_append, mem_joinMap, List.mem_filter,
      List.mem_singleton, decide_eq_true_eq]
    constructor
    · rintro (⟨e, ⟨heN, heK⟩, ht⟩ | rfl)
      · have h1 := (mem_neighborsOut g ni e).mp heN
        have h2 := (mem_neighborsOut g e t).mp ht
        exact Or.inr ⟨e, heK, h1, h2, hinv (e, t) h2 heK⟩
      · exact Or.inl rfl
    · rintro (rfl | ⟨e, hk, h1, h2, _⟩)
      · exact Or.inr rfl
      · exact Or.inl ⟨e, ⟨(mem_neighborsOut g ni e).mpr h1, hk⟩,
          (mem_neighborsOut g e t).mpr h2⟩
  · intro i t h
    rw [show columnPropEvents g columns =
        joinMap (fun t => [CommitEvent.sendColumnMsg t,
          CommitEvent.ackColumnMsg t])
          (joinMap (fun p => informTargets g p.1 p.2) columns) from
      (joinMap_joinMap _ _ columns).symm] at h ⊢
    exact alt_send_ack _ i t h

/-- C3 witness: in the chain base 0, egress 1, ingress 2, the ingress 2
is an Add target of base 0, by the target characterization. -/
theorem c3_witness :
    2 ∈ informTargets gC3 0 (.add "f" (DataType.int 0)) ↔
      (2 = 0 ∨ ∃ e, (getNode gC3 e).kind = NodeKind.egress ∧
        (0, e) ∈ gC3.edges ∧ (e, 2) ∈ gC3.edges ∧
        (getNode gC3 2).kind = NodeKind.ingress) :=
  (c3_column_propagation gC3 (by decide) 0 "f" (DataType.int 0) 0 []).1 2

/-! Claim C5: stage ordering of commit. -/

theorem pairwise_stage_of_const (l : List CommitEvent) (c : Nat)
    (h : ∀ ev ∈ l, stageOf ev = c) :
    List.Pairwise (fun a b => stageOf a ≤ stageOf b) l := by
  induction l with
  | nil => exact List.Pairwise.nil
  | cons a t ih =>
    refine List.Pairwise.cons ?_
      (ih (fun ev hev => h ev (List.mem_cons_of_mem a hev)))
    intro b hb
    rw [h a (List.mem_cons_self a t), h b (List.mem_cons_of_mem a hb)]

theorem pairwise_stage_append (l1 l2 : List CommitEvent) (c : Nat)
    (h1 : List.Pairwise (fun a b => stageOf a ≤ stageOf b) l1)
    (h2 : List.Pairwise (fun a b => stageOf a ≤ stageOf b) l2)
    (b1 : ∀ a ∈ l1, stageOf a ≤ c) (b2 : ∀ b ∈ l2, c ≤ stageOf b) :
    List.Pairwise (fun a b => stageOf a ≤ stageOf b) (l1 ++ l2) :=
  List.pairwise_append.mpr
    ⟨h1, h2, fun a ha b hb => le_trans (b1 a ha) (b2 b hb)⟩

theorem stage_placeInitEvents (g : Graph)
    (remap : List (DomainIndex × List (NodeIndex × Nat)))
    (groups : List (DomainIndex × List NodeIndex)) :
    ∀ ev ∈ placeInitEvents g remap groups, stageOf ev = 0 := by
  intro ev hev
  rcases mem_joinMap.mp hev with ⟨p, _, hin⟩
  rcases List.mem_append.mp hin with h | h <;>
    rcases List.mem_map.mp h with ⟨q, _, rfl⟩ <;> rfl

theorem stage_columnPropEvents (g : Graph)
    (columns : List (NodeIndex × ColumnChange)) :
    ∀ ev ∈ columnPropEvents g columns, stageOf ev = 2 := by
  intro ev hev
  rcases mem_joinMap.mp hev with ⟨p, _, hin⟩
  rcases mem_joinMap.mp hin with ⟨t, _, hin2⟩
  rcases List.mem_cons.mp hin2 with rfl | hin3
  · rfl
  · rcases List.mem_singleton.mp hin3 with rfl
    rfl

/-- C5: in every commit trace, the stage indices are monotone: placement
and node initialization (stage 0) precede domain boot and augmentation
(stage 1), which precede column propagation (stage 2), which precedes
inter-domain wiring (stage 3), which precedes the materialization commit
(stage 4); the materialization commit is the unique final event. -/
theorem c5_commit_stage_order (g : Graph) (source : NodeIndex)
    (new : List NodeIndex)
    (remap : List (DomainIndex × List (NodeIndex × Nat)))
    (running : List DomainIndex)
    (columns : List (NodeIndex × ColumnChange)) :
    List.Pairwise (fun a b => stageOf a ≤ stageOf b)
      (commitTrace g source new remap running columns) ∧
    (commitTrace g source new remap running columns).getLast? =
      some CommitEvent.commitMaterializations ∧
    (commitTrace g source new remap running columns).count
      CommitEvent.commitMaterializations = 1 := by
  have hP := stage_placeInitEvents g remap (domain_new_nodes g source new)
  have hB : ∀ ev ∈ (bootDomainsOf g running new).map CommitEvent.bootDomain,
      stageOf ev = 1 := by
    intro ev hev
    rcases List.mem_map.mp hev with ⟨d, _, rfl⟩
    rfl
  have hA : ∀ ev ∈ (augmentDomainsOf g source running new).map
      CommitEvent.augmentDomain, stageOf ev = 1 := by
    intro ev hev
    rcases List.mem_map.mp hev with ⟨d, _, rfl⟩
    rfl
  have hC := stage_columnPropEvents g columns
  have hPB : ∀ ev ∈ placeInitEvents g remap (domain_new_nodes g source new) ++
      (bootDomainsOf g running new).map CommitEvent.bootDomain,
      stageOf ev ≤ 1 := by
    intro ev hev
    rcases List.mem_append.mp hev with h | h
    · rw [hP ev h]; omega
    · rw [hB ev h]
  have hPBA : ∀ ev ∈ (placeInitEvents g remap (domain_new_nodes g source new) ++
      (bootDomainsOf g running new).map CommitEvent.bootDomain) ++
      (augmentDomainsOf g source running new).map CommitEvent.augmentDomain,
      stageOf ev ≤ 1 := by
    intro ev hev
    rcases List.mem_append.mp hev with h | h
    · exact hPB ev h
    · rw [hA ev h]
  have hPBAC : ∀ ev ∈ ((placeInitEvents g remap
        (domain_new_nodes g source new) ++
      (bootDomainsOf g running new).map CommitEvent.bootDomain) ++
      (augmentDomainsOf g source running new).map CommitEvent.augmentDomain) ++
      columnPropEvents g columns,
      stageOf ev ≤ 2 := by
    intro ev hev
    rcases List.mem_append.mp hev with h | h
    · exact le_trans (hPBA ev h) (by omega)
    · rw [hC ev h]
  refine ⟨?_, ?_, ?_⟩
  · show List.Pairwise (fun a b => stageOf a ≤ stageOf b)
      ((((placeInitEvents g remap (domain_new_nodes g source new) ++
        (bootDomainsOf g running new).map CommitEvent.bootDomain) ++
        (augmentDomainsOf g source running new).map
          CommitEvent.augmentDomain) ++
        columnPropEvents g columns) ++
        [CommitEvent.connectDomains, CommitEvent.commitMaterializations])
    refine pairwise_stage_append _ _ 2 ?_ ?_ hPBAC ?_
    · refine pairwise_stage_append _ _ 2 ?_
        (pairwise_stage_of_const _ 2 hC) ?_ (fun b hb => by rw [hC b hb])
      · refine pairwise_stage_append _ _ 1 ?_
          (pairwise_stage_of_const _ 1 hA) hPB (fun b hb => by rw [hA b hb])
        exact pairwise_stage_append _ _ 1
          (pairwise_stage_of_const _ 0 hP)
          (pairwise_stage_of_const _ 1 hB)
          (fun a ha => by rw [hP a ha]; omega)
          (fun b hb => by rw [hB b hb])
      · intro a ha
        exact le_trans (hPBA a ha) (by omega)
    · simp [List.pairwise_cons, stageOf]
    · intro b hb
      rcases List.mem_cons.mp hb with rfl | hb2
      · decide
      · rcases List.mem_singleton.mp hb2 with rfl
        decide
  · show ((((placeInitEvents g remap (domain_new_nodes g source new) ++
        (bootDomainsOf g running new).map CommitEvent.bootDomain) ++
        (augmentDomainsOf g source running new).map
          CommitEvent.augmentDomain) ++
        columnPropEvents g columns) ++
        [CommitEvent.connectDomains,
         CommitEvent.commitMaterializations]).getLast? =
      some CommitEvent.commitMaterializations
    rw [show ((((placeInitEvents g remap (domain_new_nodes g source new) ++
        (bootDomainsOf g running new).map CommitEvent.bootDomain) ++
        (augmentDomainsOf g source running new).map
          CommitEvent.augmentDomain) ++
        columnPropEvents g columns) ++
        [CommitEvent.connectDomains,
         CommitEvent.commitMaterializations]) =
      (((((placeInitEvents g remap (domain_new_nodes g source new) ++
        (bootDomainsOf g running new).map CommitEvent.bootDomain) ++
        (augmentDomainsOf g source running new).map
          CommitEvent.augmentDomain) ++
        columnPropEvents g columns) ++
        [CommitEvent.connectDomains]) ++
        [CommitEvent.commitMaterializations]) by simp]
    exact List.getLast?_concat _
  · show ((((placeInitEvents g remap (domain_new_nodes g source new) ++
        (bootDomainsOf g running new).map CommitEvent.bootDomain) ++
        (augmentDomainsOf g source running new).map
          CommitEvent.augmentDomain) ++
        columnPropEvents g columns) ++
        [CommitEvent.connectDomains,
         CommitEvent.commitMaterializations]).count
      CommitEvent.commitMaterializations = 1
    have hz : ∀ l : List CommitEvent, (∀ ev ∈ l, stageOf ev ≤ 2) →
        l.count CommitEvent.commitMaterializations = 0 := by
      intro l hl
      refine List.count_eq_zero.mpr ?_
      intro hmem
      have := hl _ hmem
      simp [stageOf] at this
    rw [List.count_append, hz _ hPBAC]
    decide

/-! Claim C8: algebraic properties of the swap merge. -/

theorem mergeEntry_self (g : Graph) (A : SwapMap)
    (hak : (A.map Prod.fst).Nodup)
    (hns : ∀ e ∈ A, ∀ s ∈ A.map (fun e => e.1.2), e.2 ≠ s) :
    ∀ e ∈ A, mergeEntry g A e = A := by
  intro e he
  simp only [mergeEntry, lookupA_self_of_nodup hak he]
  rw [if_neg (fun hc => hc rfl)]
  exact rewriteStale_eq_self e.2
    (fun e' he' => hns e' he' e.1.2 (List.mem_map_of_mem _ he))

theorem foldl_mergeEntry_const (g : Graph) (A : SwapMap) :
    ∀ l : SwapMap, (∀ e ∈ l, mergeEntry g A e = A) →
    l.foldl (mergeEntry g) A = A := by
  intro l
  induction l with
  | nil => intro _; rfl
  | cons e t ih =>
    intro h
    rw [List.foldl_cons, h e (List.mem_cons_self e t)]
    exact ih (fun e' he' => h e' (List.mem_cons_of_mem _ he'))

/-- Characterization of the merge when no substitute value of either map
collides with any original-parent key component: the merged map looks up
the first map first, the second map second. -/
theorem merge_char (g : Graph) :
    ∀ (B acc : SwapMap),
    (B.map Prod.fst).Nodup →
    (∀ k vA vB, lookupA acc k = some vA → lookupA B k = some vB → vA = vB) →
    (∀ e ∈ acc, ∀ s ∈ B.map (fun e => e.1.2), e.2 ≠ s) →
    (∀ e ∈ B, ∀ s ∈ B.map (fun e => e.1.2), e.2 ≠ s) →
    ∀ k, lookupA (B.foldl (mergeEntry g) acc) k =
      (match lookupA acc k with
       | some v => some v
       | none => lookupA B k) := by
  intro B
  induction B with
  | nil =>
    intro acc _ _ _ _ k
    cases h : lookupA acc k <;> simp [lookupA, h]
  | cons e rest ih =>
    intro acc hbk hagree hns hnsB k
    have hbk' : (rest.map Prod.fst).Nodup := by
      rw [List.map_cons] at hbk
      exact (List.nodup_cons.mp hbk).2
    have hknotin : e.1 ∉ rest.map Prod.fst := by
      rw [List.map_cons] at hbk
      exact (List.nodup_cons.mp hbk).1
    cases h0 : lookupA acc e.1 with
    | some v0 =>
      have hv0 : v0 = e.2 := hagree e.1 v0 e.2 h0 (by simp [lookupA])
      have hacc' : mergeEntry g acc e = acc := by
        simp only [mergeEntry, h0]
        rw [if_neg (fun hne => hne hv0.symm)]
        exact rewriteStale_eq_self e.2
          (fun e' he' => hns e' he' e.1.2 (by simp))
      rw [List.foldl_cons, hacc']
      have ihh := ih acc hbk'
        (by
          intro k' vA vB ha hb
          by_cases hk' : e.1 = k'
          · rw [← hk'] at hb
            rw [lookupA_none_of_not_mem hknotin] at hb
            cases hb
          · refine hagree k' vA vB ha ?_
            rw [lookupA, if_neg hk']
            exact hb)
        (fun e' he' s hs => hns e' he' s (List.mem_cons_of_mem _ hs))
        (fun e' he' s hs => hnsB e' (List.mem_cons_of_mem _ he') s
          (List.mem_cons_of_mem _ hs))
        k
      rw [ihh]
      cases hk : lookupA acc k with
      | some v => rfl
      | none =>
        have hne : e.1 ≠ k := by
          intro hc
          rw [hc, hk] at h0
          cases h0
        rw [lookupA, if_neg hne]
    | none =>
      have hacc' : mergeEntry g acc e = acc ++ [(e.1, e.2)] := by
        simp only [mergeEntry, h0]
        refine rewriteStale_eq_self e.2 ?_
        intro e' he'
        rcases List.mem_append.mp he' with h | h
        · exact hns e' h e.1.2 (by simp)
        · rcases List.mem_singleton.mp h with rfl
          exact hnsB e (List.mem_cons_self _ _) e.1.2 (by simp)
      rw [List.foldl_cons, hacc']
      have ihh := ih (acc ++ [(e.1, e.2)]) hbk'
        (by
          intro k' vA vB ha hb
          rw [lookupA_append] at ha
          cases haa : lookupA acc k' with
          | some v =>
            rw [haa] at ha
            have hv : vA = v := (Option.some.inj ha).symm
            subst hv
            have hk' : e.1 ≠ k' := by
              intro hc
              rw [hc, haa] at h0
              cases h0
            refine hagree k' vA vB haa ?_
            rw [lookupA, if_neg hk']
            exact hb
          | none =>
            rw [haa] at ha
            by_cases hk' : e.1 = k'
            · rw [← hk'] at hb
              rw [lookupA_none_of_not_mem hknotin] at hb
              cases hb
            · rw [lookupA, if_neg hk', lookupA] at ha
              cases ha)
        (by
          intro e' he' s hs
          rcases List.mem_append.mp he' with h | h
          · exact hns e' h s (List.mem_cons_of_mem _ hs)
          · rcases List.mem_singleton.mp h with rfl
            exact hnsB e (List.mem_cons_self _ _) s
              (List.mem_cons_of_mem _ hs))
        (fun e' he' s hs => hnsB e' (List.mem_cons_of_mem _ he') s
          (List.mem_cons_of_mem _ hs))
        k
      rw [ihh]
      cases hk : lookupA acc k with
      | some v =>
        have hL : lookupA (acc ++ [(e.1, e.2)]) k = some v := by
          rw [lookupA_append, hk]
        rw [hL]
      | none =>
        by_cases hke : e.1 = k
        · have hL : lookupA (acc ++ [(e.1, e.2)]) k = some e.2 := by
            rw [lookupA_append, hk]
            simp [lookupA, hke]
          rw [hL]
          show some e.2 = lookupA (e :: rest) k
          rw [lookupA, if_pos hke]
        · have hL : lookupA (acc ++ [(e.1, e.2)]) k = none := by
            rw [lookupA_append, hk]
            simp [lookupA, hke]
          rw [hL]
          show lookupA rest k = lookupA (e :: rest) k
          rw [lookupA, if_neg hke]

/-- C8 counterexample: two swap maps with disjoint keys (hence no key
with differing values): A = ((1,2) maps to 5), B = ((3,4) maps to 2).
Merging A into B rewrites B's stale value 2 to 5, while merging B into A
leaves it at 2, so the merge is not order-independent as claimed. -/
theorem c8_counterexample :
    lookupA (mergeSwapped { nodes := [], edges := [] }
      [((1, 2), 5)] [((3, 4), 2)]) (3, 4) = some 2 ∧
    lookupA (mergeSwapped { nodes := [], edges := [] }
      [((3, 4), 2)] [((1, 2), 5)]) (3, 4) = some 5 := by
  decide

/-- C8 amended: the swap merge is order-independent and self-merge is the
identity for maps with duplicate-free key sets that share no key with
differing values, provided additionally that no substitute value of
either map equals the original-parent component of any key of either map
(otherwise the stale-chain rewrite makes the result order-dependent). -/
theorem c8_swap_merge (g : Graph) (A B : SwapMap)
    (hak : (A.map Prod.fst).Nodup) (hbk : (B.map Prod.fst).Nodup)
    (hagree : ∀ k vA vB, lookupA A k = some vA → lookupA B k = some vB →
      vA = vB)
    (hns : ∀ v ∈ A.map Prod.snd ++ B.map Prod.snd,
           ∀ s ∈ A.map (fun e => e.1.2) ++ B.map (fun e => e.1.2), v ≠ s) :
    (∀ k, lookupA (mergeSwapped g A B) k = lookupA (mergeSwapped g B A) k) ∧
    mergeSwapped g A A = A := by
  have hnsAB : ∀ e ∈ A, ∀ s ∈ B.map (fun e => e.1.2), e.2 ≠ s :=
    fun e he s hs => hns e.2
      (List.mem_append.mpr (Or.inl (List.mem_map_of_mem _ he))) s
      (List.mem_append.mpr (Or.inr hs))
  have hnsBB : ∀ e ∈ B, ∀ s ∈ B.map (fun e => e.1.2), e.2 ≠ s :=
    fun e he s hs => hns e.2
      (List.mem_append.mpr (Or.inr (List.mem_map_of_mem _ he))) s
      (List.mem_append.mpr (Or.inr hs))
  have hnsBA : ∀ e ∈ B, ∀ s ∈ A.map (fun e => e.1.2), e.2 ≠ s :=
    fun e he s hs => hns e.2
      (List.mem_append.mpr (Or.inr (List.mem_map_of_mem _ he))) s
      (List.mem_append.mpr (Or.inl hs))
  have hnsAA : ∀ e ∈ A, ∀ s ∈ A.map (fun e => e.1.2), e.2 ≠ s :=
    fun e he s hs => hns e.2
      (List.mem_append.mpr (Or.inl (List.mem_map_of_mem _ he))) s
      (List.mem_append.mpr (Or.inl hs))
  constructor
  · intro k
    have h1 := merge_char g B A hbk hagree hnsAB hnsBB k
    have h2 := merge_char g A B hak
      (fun k' vB vA hb ha => (hagree k' vA vB ha hb).symm) hnsBA hnsAA k
    show lookupA (B.foldl (mergeEntry g) A) k =
      lookupA (A.foldl (mergeEntry g) B) k
    rw [h1, h2]
    cases ha : lookupA A k with
    | some vA =>
      cases hb : lookupA B k with
      | some vB => rw [hagree k vA vB ha hb]
      | none => rfl
    | none =>
      cases hb : lookupA B k with
      | some vB => rfl
      | none => rfl
  · exact foldl_mergeEntry_const g A A (mergeEntry_self g A hak hnsAA)

/-- C8 witness: two concrete non-interacting maps merge to the same
lookups in either order, and a map self-merges to itself. -/
theorem c8_witness :
    lookupA (mergeSwapped { nodes := [], edges := [] }
      [((1, 2), 5)] [((3, 6), 7)]) (3, 6) =
    lookupA (mergeSwapped { nodes := [], edges := [] }
      [((3, 6), 7)] [((1, 2), 5)]) (3, 6) ∧
    mergeSwapped { nodes := [], edges := [] }
      [((1, 2), 5)] [((1, 2), 5)] = [((1, 2), 5)] := by
  constructor
  · refine (c8_swap_merge { nodes := [], edges := [] }
      [((1, 2), 5)] [((3, 6), 7)] (by decide) (by decide) ?_ (by decide)).1
      (3, 6)
    intro k vA vB ha hb
    by_cases h1 : ((1, 2) : NodeIndex × NodeIndex) = k
    · rw [lookupA, if_neg (by rw [← h1]; decide), lookupA] at hb
      cases hb
    · rw [lookupA, if_neg h1, lookupA] at ha
      cases ha
  · refine (c8_swap_merge { nodes := [], edges := [] }
      [((1, 2), 5)] [((1, 2), 5)] (by decide) (by decide) ?_ (by decide)).2
    intro k vA vB ha hb
    rw [ha] at hb
    exact Option.some.inj hb

/-! Claim C1: local-address placement. -/

theorem joinMap_congr {α β : Type} {f h : α → List β} :
    ∀ l : List α, (∀ a ∈ l, f a = h a) → joinMap f l = joinMap h l := by
  intro l
  induction l with
  | nil => intro _; rfl
  | cons a t ih =>
    intro hfh
    simp only [joinMap, hfh a (List.mem_cons_self a t),
      ih (fun a' ha' => hfh a' (List.mem_cons_of_mem a ha'))]

theorem placeNodes_map_fst (start : Nat) (ns : List NodeIndex) :
    (placeNodes start ns).map Prod.fst = ns := by
  induction ns generalizing start with
  | nil => rfl
  | cons a t ih => simp [placeNodes, ih]

theorem placeNodes_map_snd (start : Nat) (ns : List NodeIndex) :
    (placeNodes start ns).map (fun q => q.2) =
      List.range' start ns.length := by
  induction ns generalizing start with
  | nil => rfl
  | cons a t ih => simp [placeNodes, List.range'_succ, ih]

theorem commitPlacement_map_fst
    (remap : List (DomainIndex × List (NodeIndex × Nat)))
    (groups : List (DomainIndex × List NodeIndex)) :
    (commitPlacement remap groups).map Prod.fst =
      joinMap (fun p => p.2) groups := by
  rw [commitPlacement, map_joinMap]
  refine joinMap_congr groups (fun p _ => ?_)
  rw [List.map_map]
  exact placeNodes_map_fst _ _

theorem pushGroup_cons (p : DomainIndex × List NodeIndex)
    (t : List (DomainIndex × List NodeIndex)) (d : DomainIndex)
    (ni : NodeIndex) :
    pushGroup (p :: t) d ni =
      if p.1 = d then (p.1, p.2 ++ [ni]) :: t else p :: pushGroup t d ni :=
  rfl

theorem pushGroup_keys (dns : List (DomainIndex × List NodeIndex))
    (d : DomainIndex) (ni : NodeIndex) :
    (pushGroup dns d ni).map Prod.fst =
      if d ∈ dns.map Prod.fst then dns.map Prod.fst
      else dns.map Prod.fst ++ [d] := by
  induction dns with
  | nil => simp [pushGroup]
  | cons p t ih =>
    rw [pushGroup_cons]
    by_cases h : p.1 = d
    · rw [if_pos h]
      have hd : d ∈ (p :: t).map Prod.fst := by
        rw [List.map_cons, ← h]
        exact List.mem_cons_self _ _
      rw [if_pos hd]
      simp [h]
    · rw [if_neg h]
      by_cases h2 : d ∈ t.map Prod.fst
      · have hd : d ∈ (p :: t).map Prod.fst := by
          rw [List.map_cons]
          exact List.mem_cons_of_mem _ h2
        rw [if_pos hd]
        simp only [List.map_cons, ih, if_pos h2]
      · have hd : d ∉ (p :: t).map Prod.fst := by
          rw [List.map_cons]
          intro hc
          rcases List.mem_cons.mp hc with hc1 | hc2
          · exact h hc1.symm
          · exact h2 hc2
        rw [if_neg hd]
        simp only [List.map_cons, ih, if_neg h2, List.cons_append]

theorem pushGroup_keys_nodup {dns : List (DomainIndex × List NodeIndex)}
    {d : DomainIndex} {ni : NodeIndex}
    (h : (dns.map Prod.fst).Nodup) :
    ((pushGroup dns d ni).map Prod.fst).Nodup := by
  rw [pushGroup_keys]
  by_cases hd : d ∈ dns.map Prod.fst
  · rw [if_pos hd]
    exact h
  · rw [if_neg hd]
    refine List.Nodup.append h (List.nodup_singleton d) ?_
    intro a ha hb
    rcases List.mem_singleton.mp hb with rfl
    exact hd ha

theorem foldl_pushGroup_keys_nodup (f : NodeIndex → DomainIndex) :
    ∀ (l : List NodeIndex) (acc : List (DomainIndex × List NodeIndex)),
    (acc.map Prod.fst).Nodup →
    ((l.foldl (fun dns ni => pushGroup dns (f ni) ni) acc).map
      Prod.fst).Nodup := by
  intro l
  induction l with
  | nil => intro acc h; exact h
  | cons a t ih =>
    intro acc h
    rw [List.foldl_cons]
    exact ih _ (pushGroup_keys_nodup h)

theorem count_joinMap_snd_pushGroup
    (dns : List (DomainIndex × List NodeIndex)) (d : DomainIndex)
    (ni : NodeIndex) (x : NodeIndex) :
    (joinMap (fun p => p.2) (pushGroup dns d ni)).count x =
      (joinMap (fun p => p.2) dns).count x + ([ni].count x) := by
  induction dns with
  | nil => simp [pushGroup, joinMap]
  | cons p t ih =>
    rw [pushGroup_cons]
    by_cases h : p.1 = d
    · rw [if_pos h]
      show ((p.2 ++ [ni]) ++ joinMap (fun p => p.2) t).count x =
        (p.2 ++ joinMap (fun p => p.2) t).count x + [ni].count x
      simp only [List.count_append]
      omega
    · rw [if_neg h]
      show (p.2 ++ joinMap (fun p => p.2) (pushGroup t d ni)).count x =
        (p.2 ++ joinMap (fun p => p.2) t).count x + [ni].count x
      simp only [List.count_append, ih]
      omega

theorem count_joinMap_snd_foldl (f : NodeIndex → DomainIndex)
    (x : NodeIndex) :
    ∀ (l : List NodeIndex) (acc : List (DomainIndex × List NodeIndex)),
    (joinMap (fun p => p.2)
      (l.foldl (fun dns ni => pushGroup dns (f ni) ni) acc)).count x =
      (joinMap (fun p => p.2) acc).count x + l.count x := by
  intro l
  induction l with
  | nil => intro acc; simp
  | cons a t ih =>
    intro acc
    rw [List.foldl_cons, ih, count_joinMap_snd_pushGroup]
    simp only [List.count_cons, List.count_singleton', List.count_nil]
    omega

theorem mem_commitPlacement_key
    (remap : List (DomainIndex × List (NodeIndex × Nat)))
    (groups : List (DomainIndex × List NodeIndex)) :
    ∀ p ∈ commitPlacement remap groups, p.2.1 ∈ groups.map Prod.fst := by
  intro p hp
  rcases mem_joinMap.mp hp with ⟨q, hq, hin⟩
  rcases List.mem_map.mp hin with ⟨r, _, rfl⟩
  exact List.mem_map_of_mem Prod.fst hq

theorem commitPlacement_filter
    (remap : List (DomainIndex × List (NodeIndex × Nat))) :
    ∀ (groups : List (DomainIndex × List NodeIndex)) (d : DomainIndex)
      (ns : List NodeIndex),
    (groups.map Prod.fst).Nodup → (d, ns) ∈ groups →
    (commitPlacement remap groups).filter (fun p => p.2.1 = d) =
      (placeNodes (remapSize remap d) ns).map (fun q => (q.1, d, q.2)) := by
  intro groups
  induction groups with
  | nil => intro d ns _ h; simp at h
  | cons p rest ih =>
    intro d ns hnd hmem
    have hnd' : (rest.map Prod.fst).Nodup := by
      rw [List.map_cons] at hnd
      exact (List.nodup_cons.mp hnd).2
    have hheadnot : p.1 ∉ rest.map Prod.fst := by
      rw [List.map_cons] at hnd
      exact (List.nodup_cons.mp hnd).1
    rw [show commitPlacement remap (p :: rest) =
        (placeNodes (remapSize remap p.1) p.2).map (fun q => (q.1, p.1, q.2))
          ++ commitPlacement remap rest from rfl,
      List.filter_append]
    rcases List.mem_cons.mp hmem with heq | hmem2
    · have hd1 : p.1 = d := by rw [← heq]
      have hns : p.2 = ns := by rw [← heq]
      have hblock : ((placeNodes (remapSize remap p.1) p.2).map
          (fun q => (q.1, p.1, q.2))).filter (fun p' => p'.2.1 = d) =
          (placeNodes (remapSize remap p.1) p.2).map
            (fun q => (q.1, p.1, q.2)) := by
        refine List.filter_eq_self.mpr ?_
        intro a ha
        rcases List.mem_map.mp ha with ⟨r, _, rfl⟩
        simp [hd1]
      have hrest : (commitPlacement remap rest).filter
          (fun p' => p'.2.1 = d) = [] := by
        refine List.filter_eq_nil_iff.mpr ?_
        intro a ha
        have := mem_commitPlacement_key remap rest a ha
        simp only [decide_eq_true_eq]
        intro hc
        rw [hc, ← hd1] at this
        exact hheadnot this
      rw [hblock, hrest, List.append_nil, hd1, hns]
    · have hdne : p.1 ≠ d := by
        intro hc
        have : d ∈ rest.map Prod.fst :=
          List.mem_map_of_mem Prod.fst hmem2
        rw [← hc] at this
        exact hheadnot this
      have hblock : ((placeNodes (remapSize remap p.1) p.2).map
          (fun q => (q.1, p.1, q.2))).filter (fun p' => p'.2.1 = d) = [] := by
        refine List.filter_eq_nil_iff.mpr ?_
        intro a ha
        rcases List.mem_map.mp ha with ⟨r, _, rfl⟩
        simp [hdne]
      rw [hblock, List.nil_append]
      exact ih d ns hnd' hmem2

/-- C1: for every committed migration, each node of the final new-node
set (excluding the source, excluding dropped nodes) receives exactly one
finalized local address, and within each domain the assigned slot numbers
are exactly the consecutive run starting at the domain's pre-migration
remap-table size (0 for a brand-new domain): dense, no collisions, no
gaps. -/
theorem c1_local_addressing (g : Graph) (source : NodeIndex)
    (new : List NodeIndex)
    (remap : List (DomainIndex × List (NodeIndex × Nat)))
    (hnd : new.Nodup) :
    (∀ ni ∈ new, ni ≠ source → isDropped g ni = false →
       ((commitPlacement remap (domain_new_nodes g source new)).map
         Prod.fst).count ni = 1) ∧
    (∀ d ns, (d, ns) ∈ domain_new_nodes g source new →
       ((commitPlacement remap (domain_new_nodes g source new)).filter
           (fun p => p.2.1 = d)).map (fun p => p.2.2) =
         List.range' (remapSize remap d) ns.length) := by
  constructor
  · intro ni hmem hs hd
    rw [commitPlacement_map_fst, domain_new_nodes,
      count_joinMap_snd_foldl (domainOf g) ni (newFiltered g source new) []]
    have hmemf : ni ∈ newFiltered g source new := by
      simp only [newFiltered, List.mem_filter, decide_eq_true_eq,
        Bool.not_eq_eq_eq_not, Bool.not_true]
      refine ⟨⟨?_, by simpa using hs⟩, by simpa using hd⟩
      rw [sortedNewList, List.mem_insertionSort]
      exact hmem
    have hndf : (newFiltered g source new).Nodup := by
      have h1 : (sortedNewList new).Nodup :=
        ((List.perm_insertionSort _ new).nodup_iff).mpr hnd
      exact (h1.filter _).filter _
    rw [List.count_eq_one_of_mem hndf hmemf]
    rfl
  · intro d ns hmem
    have hkeys : ((domain_new_nodes g source new).map Prod.fst).Nodup := by
      rw [domain_new_nodes]
      exact foldl_pushGroup_keys_nodup (domainOf g)
        (newFiltered g source new) [] (by simp)
    rw [commitPlacement_filter remap (domain_new_nodes g source new) d ns
      hkeys hmem, List.map_map]
    exact placeNodes_map_snd _ _

/-- C1 witness: over gC1 with new nodes 1, 2 (domain 1) and 3 (domain 2)
and one pre-existing slot in domain 1, node 1 receives exactly one
address, and domain 1's slots are the consecutive run of length 2 from
its pre-migration size. -/
theorem c1_witness :
    ((commitPlacement [(1, [(9, 0)])] (domain_new_nodes gC1 0 [1, 2, 3])).map
      Prod.fst).count 1 = 1 ∧
    ((commitPlacement [(1, [(9, 0)])]
        (domain_new_nodes gC1 0 [1, 2, 3])).filter
        (fun p => p.2.1 = 1)).map (fun p => p.2.2) =
      List.range' (remapSize [(1, [(9, 0)])] 1) ([1, 2] : List NodeIndex).length :=
  ⟨(c1_local_addressing gC1 0 [1, 2, 3] [(1, [(9, 0)])] (by decide)).1 1
      (by decide) (by decide) (by decide),
   (c1_local_addressing gC1 0 [1, 2, 3] [(1, [(9, 0)])] (by decide)).2 1
      [1, 2] (by decide)⟩

end NoriaMigrate
